import Mathlib

/-!
Verification development for the poker win-probability estimator
(`project2/poker.py`): a shallow embedding of the hand evaluator, the
dealing helper and the time-bounded MCTS engine, together with theorems
settling the specification claims about them.

Conventions of the embedding:
* a card is a pair of a rank (a natural number, 1 = Ace .. 13 = King) and
  one of the four suits, exactly as in the source (`(rank, suit)` tuples);
* Python tuples returned by `evaluate_hand` become `List Nat` compared
  lexicographically; code paths where the source raises an exception
  return `none`;
* Python `sorted` is modelled by insertion sort (`sortAsc` / `sortDesc`,
  the latter for `sorted(..., reverse=True)`);
* iteration order of `collections.Counter` keys is the first-occurrence
  order of the underlying list, modelled by `uniqFirst`;
* the wall clock polled by the engine's loop and the ambient random
  source are modelled by an explicit schedule of per-iteration
  environments (elapsed-time reading, index draws); the floating-point
  UCB1 score `wins/visits + sqrt(2*ln N/visits)` is abstracted as a
  rational-valued score parameter, while the argmax loop over children
  (including its strict-improvement tie behaviour and its result `None`
  on an empty child list) is modelled from the source.
-/

/-- The four suits of the source's `SUITS` constant. -/
inductive Suit : Type where
  | heart : Suit
  | diamond : Suit
  | club : Suit
  | spade : Suit
deriving DecidableEq

/-- A card `(rank, suit)`, equality componentwise, as in the source. -/
abbrev Card : Type := Nat × Suit

/-- Helper for `uniqFirst`: keep the elements not seen before, tracking
the already-seen ones in an accumulator. -/
def uniqFirstAux {α : Type} [DecidableEq α] (seen : List α) : List α → List α
  | [] => []
  | a :: t =>
      if a ∈ seen then uniqFirstAux seen t
      else a :: uniqFirstAux (a :: seen) t

/-- Distinct elements of a list in first-occurrence order: the iteration
order of the keys of a Python `Counter`/`set` built from the list. -/
def uniqFirst {α : Type} [DecidableEq α] (l : List α) : List α :=
  uniqFirstAux [] l

/-- Insert into an ascending-sorted list (model of Python `sorted`). -/
def insertAsc (x : Nat) : List Nat → List Nat
  | [] => [x]
  | y :: t => if x ≤ y then x :: y :: t else y :: insertAsc x t

/-- Ascending insertion sort: model of `sorted(...)` on integers. -/
def sortAsc (l : List Nat) : List Nat := l.foldr insertAsc []

/-- Insert into a descending-sorted list. -/
def insertDesc (x : Nat) : List Nat → List Nat
  | [] => [x]
  | y :: t => if x ≥ y then x :: y :: t else y :: insertDesc x t

/-- Descending insertion sort: model of `sorted(..., reverse=True)`. -/
def sortDesc (l : List Nat) : List Nat := l.foldr insertDesc []

/-- The scan of `find_straight`: walk the ascending windows of five
consecutive entries of a sorted list (`for i in range(len - 4)`), and on
the first window with `window[-1] - window[0] == 4` return `window[-1]`. -/
def scanWin : List Nat → Option Nat
  | a :: b :: c :: d :: e :: t =>
      if e - a = 4 then some e else scanWin (b :: c :: d :: e :: t)
  | _ => none

/-- `find_straight(ranks)` from the source: the distinct ranks (plus a
virtual 14 when rank 1 is present) sorted ascending, scanned for the
first five-wide window spanning exactly 4. -/
def find_straight (ranks : List Nat) : Option Nat :=
  scanWin (sortAsc (uniqFirst (if 1 ∈ ranks then 14 :: ranks else ranks)))

/-- The ranks of a list of cards (`[r for r, s in cards]`). -/
def cardRanks (cards : List Card) : List Nat := cards.map Prod.fst

/-- The suits of a list of cards (`[s for r, s in cards]`). -/
def cardSuits (cards : List Card) : List Suit := cards.map Prod.snd

/-- The flush suit: the first suit (in first-occurrence order, the order
of `suit_counts.items()`) with at least five occurrences, if any. -/
def flushSuit (cards : List Card) : Option Suit :=
  (uniqFirst (cardSuits cards)).find?
    (fun s => decide (5 ≤ (cardSuits cards).count s))

/-- The straight-flush top card: when a flush suit exists, the result of
`find_straight` on the ranks of that suit's cards. -/
def straightFlushTop (cards : List Card) : Option Nat :=
  match flushSuit cards with
  | some fs => find_straight (cardRanks (cards.filter (fun c => c.2 == fs)))
  | none => none

/-- The ranks occurring exactly four times, in `rank_counts.items()`
(first-occurrence) order: `[r for r, c in rank_counts.items() if c == 4]`. -/
def fourRanks (cards : List Card) : List Nat :=
  (uniqFirst (cardRanks cards)).filter
    (fun x => (cardRanks cards).count x == 4)

/-- The ranks occurring at least three times, sorted descending. -/
def threeRanks (cards : List Card) : List Nat :=
  sortDesc ((uniqFirst (cardRanks cards)).filter
    (fun x => decide (3 ≤ (cardRanks cards).count x)))

/-- The ranks occurring at least twice and not already counted among the
triples, sorted descending. -/
def pairRanks (cards : List Card) : List Nat :=
  sortDesc ((uniqFirst (cardRanks cards)).filter
    (fun x => decide (2 ≤ (cardRanks cards).count x)
      && !((threeRanks cards).contains x)))

/-- `evaluate_hand(cards)` from the source: the hand-rank descriptor as a
list (category first, then tiebreakers), compared lexicographically.
`none` models the two code paths that raise on degenerate inputs
(`kickers[0]` on an empty kicker list in the four-of-a-kind branch and
`max([])` in the two-pair branch); both are unreachable for real 5-to-7
card hands. -/
def evaluate_hand (cards : List Card) : Option (List Nat) :=
  let ranks := cardRanks cards
  match straightFlushTop cards with
  | some t => some [9, t]
  | none =>
    match fourRanks cards with
    | quad :: _ =>
        match sortDesc (ranks.filter (fun x => x != quad)) with
        | k :: _ => some [8, quad, k]
        | [] => none
    | [] =>
      let threes := threeRanks cards
      let pairs := pairRanks cards
      if threes ≠ [] ∧ pairs ≠ [] then
        some [7, threes.headD 0, pairs.headD 0]
      else if 2 ≤ threes.length then
        some [7, threes.headD 0, threes.getD 1 0]
      else
        match flushSuit cards with
        | some fs =>
            some (6 ::
              (sortDesc (cardRanks (cards.filter (fun c => c.2 == fs)))).take 5)
        | none =>
          match find_straight ranks with
          | some t => some [5, t]
          | none =>
            match threes with
            | trips :: _ =>
                some (4 :: trips ::
                  (sortDesc (ranks.filter (fun x => x != trips))).take 2)
            | [] =>
              if 2 ≤ pairs.length then
                let top2 := pairs.take 2
                match ranks.filter (fun x => !top2.contains x) with
                | [] => none
                | k :: ks => some [3, top2.headD 0, top2.getD 1 0,
                    (k :: ks).foldr Nat.max 0]
              else
                match pairs with
                | pr :: _ =>
                    some (2 :: pr ::
                      (sortDesc (ranks.filter (fun x => x != pr))).take 3)
                | [] => some (1 :: (sortDesc ranks).take 5)

/-- `deal_cards(deck, num)` from the source.  The result pairs the dealt
cards (or `none` when the source raises `ValueError`) with the state of
the caller's deck after the call: the source mutates the deck in place
(`del deck[:num]`) only after the length check, so on failure the deck is
returned unmodified. -/
def deal_cards (deck : List Card) (num : Nat) : Option (List Card) × List Card :=
  if deck.length < num then (none, deck)
  else (some (deck.take num), deck.drop num)

/-- Modelled from the spec: the straight-detection sub-algorithm stated
in the spec's words — scan consecutive windows of five for a run whose
maximum minus minimum equals 4, returning the maximum (the high card) of
the first qualifying window found while scanning ascending. -/
def straightSpecScan : List Nat → Option Nat
  | a :: b :: c :: d :: e :: t =>
      let mx := max a (max b (max c (max d e)))
      let mn := min a (min b (min c (min d e)))
      if mx - mn = 4 then some mx else straightSpecScan (b :: c :: d :: e :: t)
  | _ => none

/-- Modelled from the spec: build the set of distinct ranks (plus 14 if
rank 1 is present), sort ascending, and scan windows of five. -/
def straightSpec (ranks : List Nat) : Option Nat :=
  straightSpecScan (sortAsc (uniqFirst (if 1 ∈ ranks then 14 :: ranks else ranks)))

theorem mem_insertAsc {x y : Nat} {l : List Nat} :
    y ∈ insertAsc x l ↔ y = x ∨ y ∈ l := by
  induction l with
  | nil => simp [insertAsc]
  | cons a t ih =>
      simp only [insertAsc]
      split
      · simp [List.mem_cons]
      · simp only [List.mem_cons, ih]
        tauto

theorem sorted_insertAsc {x : Nat} {l : List Nat} (h : l.Pairwise (· ≤ ·)) :
    (insertAsc x l).Pairwise (· ≤ ·) := by
  induction l with
  | nil => simp [insertAsc]
  | cons a t ih =>
      rcases List.pairwise_cons.mp h with ⟨ha, ht⟩
      simp only [insertAsc]
      split
      case isTrue hxa =>
        refine List.pairwise_cons.mpr ⟨?_, h⟩
        intro z hz
        rcases List.mem_cons.mp hz with rfl | hz'
        · exact hxa
        · exact le_trans hxa (ha z hz')
      case isFalse hxa =>
        refine List.pairwise_cons.mpr ⟨?_, ih ht⟩
        intro z hz
        rcases mem_insertAsc.mp hz with rfl | hz'
        · exact Nat.le_of_not_le hxa
        · exact ha z hz'

theorem sorted_sortAsc (l : List Nat) : (sortAsc l).Pairwise (· ≤ ·) := by
  induction l with
  | nil => exact List.Pairwise.nil
  | cons a t ih => exact sorted_insertAsc ih

theorem scanWin_eq_specScan (l : List Nat) (h : l.Pairwise (· ≤ ·)) :
    scanWin l = straightSpecScan l := by
  induction l with
  | nil => rfl
  | cons a t ih =>
      rcases t with _ | ⟨b, _ | ⟨c, _ | ⟨d, _ | ⟨e, t'⟩⟩⟩⟩
      · rfl
      · rfl
      · rfl
      · rfl
      · simp only [List.pairwise_cons, List.mem_cons] at h
        obtain ⟨ha, hb, hc, hd, he, ht⟩ := h
        have hab : a ≤ b := ha b (Or.inl rfl)
        have hae : a ≤ e := ha e (Or.inr (Or.inr (Or.inr (Or.inl rfl))))
        have hbc : b ≤ c := hb c (Or.inl rfl)
        have hbe : b ≤ e := hb e (Or.inr (Or.inr (Or.inl rfl)))
        have hcd : c ≤ d := hc d (Or.inl rfl)
        have hce : c ≤ e := hc e (Or.inr (Or.inl rfl))
        have hde : d ≤ e := hd e (Or.inl rfl)
        have hmx : max a (max b (max c (max d e))) = e := by
          rw [Nat.max_eq_right hde, Nat.max_eq_right hce,
            Nat.max_eq_right hbe, Nat.max_eq_right hae]
        have hmn : min a (min b (min c (min d e))) = a := by
          rw [Nat.min_eq_left hde, Nat.min_eq_left hcd,
            Nat.min_eq_left hbc, Nat.min_eq_left hab]
        have htail : (b :: c :: d :: e :: t').Pairwise (· ≤ ·) := by
          simp only [List.pairwise_cons, List.mem_cons]
          exact ⟨hb, hc, hd, he, ht⟩
        simp only [scanWin, straightSpecScan, hmx, hmn]
        split
        · rfl
        · exact ih htail

/-- Claim C4: straight detection builds the set of distinct ranks, adds
14 when rank 1 is present, sorts ascending, scans windows of five
consecutive sorted entries, and returns the highest rank of the first
window whose maximum minus minimum equals 4 (no straight when no window
qualifies); the same sub-algorithm is applied to the flush suit's ranks
in the straight-flush check — `find_straight` agrees with the
spec-modelled `straightSpec` on every rank list, and the straight-flush
check is exactly this sub-algorithm on the flush suit's ranks. -/
theorem find_straight_matches_spec (ranks : List Nat) (cards : List Card) :
    find_straight ranks = straightSpec ranks ∧
    straightFlushTop cards = (flushSuit cards).bind
      (fun fs => straightSpec (cardRanks (cards.filter (fun c => c.2 == fs)))) := by
  constructor
  · exact scanWin_eq_specScan _ (sorted_sortAsc _)
  · unfold straightFlushTop
    cases flushSuit cards with
    | none => rfl
    | some fs =>
        simp only [Option.bind_some]
        exact scanWin_eq_specScan _ (sorted_sortAsc _)

/-- Claim C1 counterexample: evaluating the ace-high straight flush in
hearts does not return `(9, 13)` — the source's `find_straight` reports
the virtual rank 14 for the ace-high run, so the descriptor is `(9, 14)`. -/
theorem evaluate_hand_royal_ne : evaluate_hand
    [(10, Suit.heart), (11, Suit.heart), (12, Suit.heart),
     (13, Suit.heart), (1, Suit.heart)] ≠ some [9, 13] := by decide

/-- Claim C1 amended: evaluating the five cards
`[(10,heart),(11,heart),(12,heart),(13,heart),(1,heart)]` returns the
descriptor `(9, 14)`: category 9 (straight flush) with tiebreak 14, the
ace counted as the virtual rank 14 atop the ten-to-ace run. -/
theorem evaluate_hand_royal : evaluate_hand
    [(10, Suit.heart), (11, Suit.heart), (12, Suit.heart),
     (13, Suit.heart), (1, Suit.heart)] = some [9, 14] := by decide

/-- Claim C3 counterexample: the evaluator performs no arity validation —
invoked on the single-card input `[(2, heart)]` (fewer than 5 cards) it
does not fail with an invalid-argument error, but returns the high-card
descriptor `(1, 2)`. -/
theorem evaluate_hand_short_input_returns :
    evaluate_hand [(2, Suit.heart)] = some [1, 2] := by decide

/-- Claim C3 amended: the evaluator performs no arity validation, so an
input of fewer than 5 cards does not fail with an invalid-argument error;
the same category cascade still produces a descriptor — in particular any
single card `(r, s)` evaluates to the high-card descriptor `(1, r)`. -/
theorem evaluate_hand_single (r : Nat) (s : Suit) :
    evaluate_hand [(r, s)] = some [1, r] := by
  have hfs : flushSuit [(r, s)] = none := by
    simp [flushSuit, cardSuits, uniqFirst, uniqFirstAux, List.find?]
  have hsf : straightFlushTop [(r, s)] = none := by
    simp [straightFlushTop, hfs]
  have hfours : fourRanks [(r, s)] = [] := by
    simp [fourRanks, cardRanks, uniqFirst, uniqFirstAux]
  have hthrees : threeRanks [(r, s)] = [] := by
    simp [threeRanks, cardRanks, uniqFirst, uniqFirstAux, sortDesc]
  have hpairs : pairRanks [(r, s)] = [] := by
    simp [pairRanks, cardRanks, uniqFirst, uniqFirstAux, sortDesc]
  have hstr : find_straight [r] = none := by
    by_cases h1 : r = 1
    · subst h1; rfl
    · have h1' : ¬(1 = r) := fun h => h1 h.symm
      simp [find_straight, uniqFirst, uniqFirstAux, sortAsc,
        insertAsc, scanWin, h1']
  simp [evaluate_hand, hsf, hfours, hthrees, hpairs, hstr, hfs,
    sortDesc, insertDesc, cardRanks]

/-- Claim C8: for a deck of size `d` and a request of `num` cards, when
`num ≤ d` dealing returns exactly the first `num` cards in order and
leaves the remaining `d - num` cards; when `num > d` it fails with an
invalid-argument error and the deck is left unmodified. -/
theorem deal_cards_spec (deck : List Card) (num : Nat) :
    (num ≤ deck.length →
      deal_cards deck num = (some (deck.take num), deck.drop num) ∧
      (deck.take num).length = num ∧
      (deck.drop num).length = deck.length - num ∧
      deck.take num ++ deck.drop num = deck) ∧
    (deck.length < num → deal_cards deck num = (none, deck)) := by
  constructor
  · intro h
    refine ⟨?_, ?_, ?_, ?_⟩
    · simp [deal_cards, Nat.not_lt.mpr h]
    · rw [List.length_take]
      exact Nat.min_eq_left h
    · exact List.length_drop num deck
    · exact List.take_append_drop num deck
  · intro h
    simp [deal_cards, h]

/-- Witness for claim C8 at a concrete three-card deck: a request of 2
succeeds with the first two cards, a request of 5 fails and leaves the
deck untouched. -/
theorem deal_cards_spec_witness :
    deal_cards [(2, Suit.heart), (3, Suit.club), (4, Suit.spade)] 2 =
      (some [(2, Suit.heart), (3, Suit.club)], [(4, Suit.spade)]) ∧
    deal_cards [(2, Suit.heart), (3, Suit.club), (4, Suit.spade)] 5 =
      (none, [(2, Suit.heart), (3, Suit.club), (4, Suit.spade)]) :=
  ⟨((deal_cards_spec [(2, Suit.heart), (3, Suit.club), (4, Suit.spade)] 2).1
      (by decide)).1,
   (deal_cards_spec [(2, Suit.heart), (3, Suit.club), (4, Suit.spade)] 5).2
      (by decide)⟩

theorem mem_uniqFirstAux {α : Type} [DecidableEq α] (x : α) :
    ∀ (l seen : List α), x ∈ uniqFirstAux seen l ↔ (x ∈ l ∧ x ∉ seen) := by
  intro l
  induction l with
  | nil => intro seen; simp [uniqFirstAux]
  | cons a t ih =>
      intro seen
      simp only [uniqFirstAux]
      by_cases ha : a ∈ seen
      · rw [if_pos ha, ih]
        simp only [List.mem_cons]
        constructor
        · rintro ⟨hx, hs⟩
          exact ⟨Or.inr hx, hs⟩
        · rintro ⟨hx | hx, hs⟩
          · subst hx; exact absurd ha hs
          · exact ⟨hx, hs⟩
      · rw [if_neg ha]
        simp only [List.mem_cons, ih, List.mem_cons]
        by_cases hxa : x = a
        · subst hxa; simp [ha]
        · simp [hxa]

theorem mem_uniqFirst {α : Type} [DecidableEq α] {x : α} {l : List α} :
    x ∈ uniqFirst l ↔ x ∈ l := by
  rw [uniqFirst, mem_uniqFirstAux]
  simp

theorem nodup_uniqFirstAux {α : Type} [DecidableEq α] :
    ∀ (l seen : List α), (uniqFirstAux seen l).Nodup := by
  intro l
  induction l with
  | nil => intro seen; simp [uniqFirstAux]
  | cons a t ih =>
      intro seen
      simp only [uniqFirstAux]
      by_cases ha : a ∈ seen
      · rw [if_pos ha]; exact ih seen
      · rw [if_neg ha]
        refine List.nodup_cons.mpr ⟨?_, ih (a :: seen)⟩
        intro hmem
        exact ((mem_uniqFirstAux a t (a :: seen)).mp hmem).2
          (List.mem_cons_self a seen)

theorem nodup_uniqFirst {α : Type} [DecidableEq α] (l : List α) :
    (uniqFirst l).Nodup := nodup_uniqFirstAux l []

theorem countP_split {α : Type} (p q : α → Bool) (l : List α) :
    l.countP p =
      l.countP (fun a => p a && q a) + l.countP (fun a => p a && !q a) := by
  induction l with
  | nil => rfl
  | cons a t ih =>
      simp only [List.countP_cons]
      cases hp : p a <;> cases hq : q a <;> simp [hp, hq] <;> omega

theorem countP_add_not {α : Type} (q : α → Bool) (l : List α) :
    l.countP q + l.countP (fun a => !q a) = l.length := by
  have h := countP_split (fun _ => true) q l
  simp only [Bool.true_and] at h
  rw [← h]
  have : l.countP (fun _ => true) = l.length := by
    simp [List.countP_true]
  omega

theorem countP_le_one_of_nodup {α : Type} {p : α → Bool} {x : α}
    {l : List α} (hn : l.Nodup) (h : ∀ a ∈ l, p a = true → a = x) :
    l.countP p ≤ 1 := by
  induction l with
  | nil => simp
  | cons a t ih =>
      have ht : ∀ b ∈ t, p b = true → b = x :=
        fun b hb => h b (List.mem_cons_of_mem _ hb)
      have hna := List.nodup_cons.mp hn
      by_cases hp : p a = true
      · have hax : a = x := h a (List.mem_cons_self a t) hp
        rw [List.countP_cons_of_pos _ _ hp]
        have hz : t.countP p = 0 := by
          rw [List.countP_eq_zero]
          intro b hb hpb
          have hbx : b = x := ht b hb hpb
          exact hna.1 (by rw [hax, ← hbx]; exact hb)
        omega
      · rw [List.countP_cons_of_neg _ _ hp]
        exact ih hna.2 ht

theorem count_cardRanks (cards : List Card) (x : Nat) :
    (cardRanks cards).count x = cards.countP (fun c => c.1 == x) := by
  rw [cardRanks, List.count_eq_countP, List.countP_map]
  rfl

theorem count_cardSuits (cards : List Card) (s : Suit) :
    (cardSuits cards).count s = cards.countP (fun c => c.2 == s) := by
  rw [cardSuits, List.count_eq_countP, List.countP_map]
  rfl

theorem nodup_all_eq {α : Type} {l : List α} {r : α} (hn : l.Nodup)
    (hmem : r ∈ l) (hall : ∀ x ∈ l, x = r) : l = [r] := by
  cases l with
  | nil => cases hmem
  | cons a t =>
      have ha : a = r := hall a (List.mem_cons_self a t)
      subst ha
      cases t with
      | nil => rfl
      | cons b u =>
          have hb : b = a := hall b (List.mem_cons_of_mem _ (List.mem_cons_self b u))
          subst hb
          exact absurd (List.mem_cons_self b u) (List.nodup_cons.mp hn).1

theorem sortDesc_eq_max_cons : ∀ (l : List Nat), l ≠ [] →
    ∃ t, sortDesc l = l.foldr Nat.max 0 :: t := by
  intro l
  induction l with
  | nil => intro h; exact absurd rfl h
  | cons a u ih =>
      intro _
      cases u with
      | nil =>
          refine ⟨[], ?_⟩
          simp [sortDesc, insertDesc]
      | cons b v =>
          obtain ⟨t, ht⟩ := ih (by simp)
          have hstep : sortDesc (a :: b :: v) = insertDesc a (sortDesc (b :: v)) := rfl
          rw [hstep, ht]
          by_cases hM : a ≥ (b :: v).foldr Nat.max 0
          · refine ⟨(b :: v).foldr Nat.max 0 :: t, ?_⟩
            have hmax : Nat.max a ((b :: v).foldr Nat.max 0) = a :=
              Nat.max_eq_left hM
            rw [List.foldr_cons] at hM
            simp only [insertDesc, List.foldr_cons] at hmax ⊢
            rw [if_pos hM, hmax]
          · refine ⟨insertDesc a t, ?_⟩
            have hmax : Nat.max a ((b :: v).foldr Nat.max 0) =
                (b :: v).foldr Nat.max 0 :=
              Nat.max_eq_right (Nat.le_of_not_le hM)
            rw [List.foldr_cons] at hM
            simp only [insertDesc, List.foldr_cons] at hmax ⊢
            rw [if_neg hM, hmax]

/-- Claim C5: every valid 5-to-7-card input containing four cards of one
rank evaluates to category 8 with tiebreak (quad rank, highest remaining
rank), regardless of the other cards. -/
theorem four_of_a_kind_eval (cards : List Card) (r : Nat)
    (hnd : cards.Nodup) (h5 : 5 ≤ cards.length) (h7 : cards.length ≤ 7)
    (h4 : (cardRanks cards).count r = 4) :
    evaluate_hand cards =
      some [8, r,
        ((cardRanks cards).filter (fun x => x != r)).foldr Nat.max 0] := by
  have h4' : cards.countP (fun c => c.1 == r) = 4 := by
    rw [← count_cardRanks]; exact h4
  have hnot : cards.countP (fun c => !(c.1 == r)) = cards.length - 4 := by
    have := countP_add_not (fun c => c.1 == r) cards
    omega
  have hsuit : ∀ s : Suit, ¬(5 ≤ (cardSuits cards).count s) := by
    intro s hs
    rw [count_cardSuits] at hs
    have hsplit := countP_split (fun c => c.2 == s) (fun c => c.1 == r) cards
    have hb1 : cards.countP (fun c => (c.2 == s) && (c.1 == r)) ≤ 1 := by
      apply countP_le_one_of_nodup hnd (x := ((r, s) : Card))
      intro a _ hpa
      have h1 := (Bool.and_eq_true _ _).mp hpa
      have h2 : a.2 = s := by simpa using h1.1
      have h3 : a.1 = r := by simpa using h1.2
      cases a with
      | mk a1 a2 => simp_all
    have hb2 : cards.countP (fun c => (c.2 == s) && !(c.1 == r)) ≤
        cards.countP (fun c => !(c.1 == r)) := by
      apply List.countP_mono_left
      intro a _ hpa
      exact ((Bool.and_eq_true _ _).mp hpa).2
    omega
  have hflush : flushSuit cards = none := by
    rw [flushSuit, List.find?_eq_none]
    intro s _
    simp [hsuit s]
  have hsf : straightFlushTop cards = none := by
    rw [straightFlushTop, hflush]
  have hrmem : r ∈ cardRanks cards := by
    rw [← List.count_pos_iff]
    omega
  have hru : r ∈ uniqFirst (cardRanks cards) := mem_uniqFirst.mpr hrmem
  have honly : ∀ x ∈ uniqFirst (cardRanks cards),
      ((cardRanks cards).count x == 4) = true → x = r := by
    intro x _ hx
    have hx4 : (cardRanks cards).count x = 4 := by simpa using hx
    by_contra hne
    have hxc : (cardRanks cards).count x ≤
        cards.countP (fun c => !(c.1 == r)) := by
      rw [count_cardRanks]
      apply List.countP_mono_left
      intro a _ hpa
      have ha : a.1 = x := by simpa using hpa
      simpa [ha] using hne
    omega
  have hfours : fourRanks cards = [r] := by
    rw [fourRanks]
    apply nodup_all_eq (List.Nodup.filter _ (nodup_uniqFirst _))
    · rw [List.mem_filter]
      exact ⟨hru, by simp [h4]⟩
    · intro x hxf
      have hm := List.mem_filter.mp hxf
      exact honly x hm.1 hm.2
  have hkcount : ((cardRanks cards).filter (fun x => x != r)).length =
      cards.length - 4 := by
    rw [← List.countP_eq_length_filter, cardRanks, List.countP_map, ← hnot]
    apply List.countP_congr
    intro c _
    simp [Function.comp, bne]
  have hkne : (cardRanks cards).filter (fun x => x != r) ≠ [] := by
    apply List.ne_nil_of_length_pos
    omega
  obtain ⟨tl, htl⟩ :=
    sortDesc_eq_max_cons ((cardRanks cards).filter (fun x => x != r)) hkne
  simp only [evaluate_hand, hsf, hfours, htl]

/-- Witness for claim C5 at the spec's example: the four aces with a five
kicker evaluate to `(8, 1, 5)`. -/
theorem four_of_a_kind_eval_witness :
    evaluate_hand [(1, Suit.heart), (1, Suit.diamond), (1, Suit.club),
      (1, Suit.spade), (5, Suit.heart)] = some [8, 1, 5] :=
  four_of_a_kind_eval _ 1 (by decide) (by decide) (by decide) (by decide)

/-- Lexicographic strict comparison of Python tuples of integers (used
for `bot_eval > opp_eval`): `tupLt u v` means `u < v`.  A strict prefix
compares smaller, as in Python. -/
def tupLt : List Nat → List Nat → Bool
  | [], [] => false
  | [], _ :: _ => true
  | _ :: _, [] => false
  | a :: ta, b :: tb =>
      if a < b then true else if b < a then false else tupLt ta tb

/-- A `Node` of the search tree, as created for one sampled opponent
hand (the root is held unpacked in `MctsState`): the candidate hand and
the `wins`/`visits` statistics.  Children never receive `untried` lists
or children of their own — the source only ever expands at the root. -/
structure Child where
  hand : Card × Card
  wins : Rat
  visits : Nat
deriving DecidableEq

/-- The engine state of `mcts_decision`: the caller-supplied card lists
(tracked explicitly so that the frame claims about them are statable),
the root's `untried` candidate list, the root's children and the root's
statistics. -/
structure MctsState where
  holeCards : List Card
  communityCards : List Card
  deckCards : List Card
  untried : List (Card × Card)
  children : List Child
  rootWins : Rat
  rootVisits : Nat
deriving DecidableEq

/-- The ambient environment observed by one loop iteration: the elapsed
wall-clock reading `t` of `time.time() - start` at the loop check, the
draw `pick` determinising `random.randrange` (reduced mod the list
length), and the index stream `shuf` determinising `random.shuffle`. -/
structure IterEnv where
  t : Rat
  pick : Nat
  shuf : List Nat
deriving DecidableEq

/-- `[c for c in deck if c not in hole_cards and c not in community_cards]`
— computed at engine start for `untried` and recomputed per iteration as
the simulation deck (lines 122 and 140 of the source). -/
def availableCards (hole community deck : List Card) : List Card :=
  deck.filter (fun c => !(hole.contains c) && !(community.contains c))

/-- `itertools.combinations(available, 2)`: all pairs `(available[i],
available[j])` with `i < j`, in lexicographic index order. -/
def combinations2 {α : Type} : List α → List (α × α)
  | [] => []
  | a :: t => t.map (fun b => (a, b)) ++ combinations2 t

/-- `untried.pop(i)`: the removed element and the remaining list, or
`none` when the index is out of range. -/
def popAt {α : Type} (l : List α) (i : Nat) : Option (α × List α) :=
  match l.get? i with
  | some x => some (x, l.eraseIdx i)
  | none => none

/-- `random.shuffle` determinised by a stream of index draws: repeatedly
move the element at the next drawn index (mod the remaining length) to
the front.  Any permutation the source's shuffle can produce arises from
some stream. -/
def shuffleWith {α : Type} : List Nat → List α → List α
  | [], l => l
  | _ :: _, [] => []
  | r :: rs, x :: xs =>
      let i : Fin (x :: xs).length :=
        ⟨r % (x :: xs).length, Nat.mod_lt _ (Nat.succ_pos _)⟩
      (x :: xs).get i :: shuffleWith rs ((x :: xs).eraseIdx i.val)

/-- The rollout outcome: `1.0 if bot_eval > opp_eval else (0.5 if
bot_eval == opp_eval else 0.0)`. -/
def simOutcome (botEval oppEval : List Nat) : Rat :=
  if tupLt oppEval botEval then 1 else if botEval = oppEval then 1/2 else 0

/-- The selection loop over the root's children: `best, best_score =
None, -inf; for c in children: score = ...; if score > best_score: ...`
— carried out on indices, with the score function abstract (the source
computes `c.wins/c.visits + sqrt(2*log(node.visits)/c.visits)` in
floating point; every theorem below holds for an arbitrary score). -/
def bestChildAux (score : Rat → Nat → Nat → Rat) (rv : Nat) :
    List Child → Nat → Option (Nat × Rat) → Option (Nat × Rat)
  | [], _, best => best
  | c :: rest, i, best =>
      let s := score c.wins c.visits rv
      match best with
      | none => bestChildAux score rv rest (i + 1) (some (i, s))
      | some (bi, bs) =>
          if s > bs then bestChildAux score rv rest (i + 1) (some (i, s))
          else bestChildAux score rv rest (i + 1) (some (bi, bs))

/-- The index of the child selected by the UCB loop, `none` when there
are no children (the source's `best` stays `None` and the subsequent
`node.hand` dereference raises `AttributeError`). -/
def bestChildIdx (score : Rat → Nat → Nat → Rat) (rv : Nat)
    (children : List Child) : Option Nat :=
  (bestChildAux score rv children 0 none).map Prod.fst

/-- The simulation and backpropagation phase of one iteration for the
selected child at index `idx`: rebuild the available cards, remove the
opponent's two cards (`list.remove` raises when absent — `none`),
shuffle, draw `5 - len(community)` cards by popping from the end,
evaluate both seven-card hands and push the outcome into the child's and
the root's statistics. -/
def simulateAndBackprop (st : MctsState) (idx : Nat) (env : IterEnv) :
    Option MctsState :=
  match st.children.get? idx with
  | none => none
  | some node =>
    let simDeck0 := availableCards st.holeCards st.communityCards st.deckCards
    if node.hand.1 ∈ simDeck0 then
      let simDeck1 := simDeck0.erase node.hand.1
      if node.hand.2 ∈ simDeck1 then
        let simDeck2 := simDeck1.erase node.hand.2
        let simDeck3 := shuffleWith env.shuf simDeck2
        let needed := 5 - st.communityCards.length
        if needed ≤ simDeck3.length then
          let drawn := (simDeck3.drop (simDeck3.length - needed)).reverse
          let simBoard := st.communityCards ++ drawn
          match evaluate_hand (st.holeCards ++ simBoard),
              evaluate_hand (node.hand.1 :: node.hand.2 :: simBoard) with
          | some botEval, some oppEval =>
              let outcome := simOutcome botEval oppEval
              some { st with
                children := st.children.set idx
                  { node with wins := node.wins + outcome,
                              visits := node.visits + 1 },
                rootWins := st.rootWins + outcome,
                rootVisits := st.rootVisits + 1 }
          | _, _ => none
        else none
      else none
    else none

/-- One iteration of the search loop: expansion of a random untried
candidate when any remains, otherwise UCB selection among the children
(crashing — `none` — when there are no children either), followed by
simulation and backpropagation. -/
def mctsIter (score : Rat → Nat → Nat → Rat) (st : MctsState)
    (env : IterEnv) : Option MctsState :=
  match st.untried with
  | _ :: _ =>
      match popAt st.untried (env.pick % st.untried.length) with
      | some (opp, rest) =>
          simulateAndBackprop
            { st with untried := rest,
                      children := st.children ++ [⟨opp, 0, 0⟩] }
            st.children.length env
      | none => none
  | [] =>
      match bestChildIdx score st.rootVisits st.children with
      | some j => simulateAndBackprop st j env
      | none => none

/-- The engine state at entry of `mcts_decision`: fresh root, `untried`
set to every unordered pair of available cards. -/
def mctsInit (hole community deck : List Card) : MctsState :=
  { holeCards := hole, communityCards := community, deckCards := deck,
    untried := combinations2 (availableCards hole community deck),
    children := [], rootWins := 0, rootVisits := 0 }

/-- The search loop `while time.time() - start < time_limit`: consume
the schedule of per-iteration environments, stopping at the first
elapsed reading at or beyond the limit; a crashed iteration propagates
as `none`. -/
def mctsRun (score : Rat → Nat → Nat → Rat) (timeLimit : Rat) :
    List IterEnv → MctsState → Option MctsState
  | [], st => some st
  | env :: rest, st =>
      if env.t < timeLimit then
        match mctsIter score st env with
        | some st2 => mctsRun score timeLimit rest st2
        | none => none
      else some st

/-- `mcts_decision(hole_cards, community_cards, deck, time_limit)`: run
the loop and return `root.wins / root.visits if root.visits else 0.0`. -/
def mcts_decision (hole community deck : List Card) (timeLimit : Rat)
    (score : Rat → Nat → Nat → Rat) (sched : List IterEnv) : Option Rat :=
  (mctsRun score timeLimit sched (mctsInit hole community deck)).map
    (fun st => if st.rootVisits ≠ 0 then st.rootWins / st.rootVisits else 0)

theorem simOutcome_nonneg (b o : List Nat) : 0 ≤ simOutcome b o := by
  unfold simOutcome
  split
  · norm_num
  · split <;> norm_num

theorem simOutcome_le_one (b o : List Nat) : simOutcome b o ≤ 1 := by
  unfold simOutcome
  split
  · norm_num
  · split <;> norm_num

theorem map_hand_set : ∀ (l : List Child) (i : Nat) (node : Child)
    (w : Rat) (v : Nat), l.get? i = some node →
    (l.set i { node with wins := w, visits := v }).map Child.hand =
      l.map Child.hand := by
  intro l
  induction l with
  | nil => intro i node w v h; simp at h
  | cons a t ih =>
      intro i node w v h
      cases i with
      | zero =>
          simp only [List.get?_cons_zero, Option.some_inj] at h
          subst h
          simp [List.set]
      | succ n =>
          simp only [List.get?_cons_succ] at h
          simp [List.set, ih n node w v h]

theorem popAt_perm {α : Type} : ∀ (l : List α) (i : Nat) (x : α)
    (rest : List α), popAt l i = some (x, rest) → l.Perm (x :: rest) := by
  intro l
  induction l with
  | nil => intro i x rest h; simp [popAt] at h
  | cons a t ih =>
      intro i x rest h
      cases i with
      | zero =>
          simp only [popAt, List.get?_cons_zero, List.eraseIdx_cons_zero,
            Option.some_inj, Prod.mk.injEq] at h
          obtain ⟨rfl, rfl⟩ := h
          exact List.Perm.refl _
      | succ n =>
          simp only [popAt, List.get?_cons_succ, List.eraseIdx_cons_succ] at h
          cases hg : t.get? n with
          | none => rw [hg] at h; simp at h
          | some y =>
              rw [hg] at h
              simp only [Option.some_inj, Prod.mk.injEq] at h
              obtain ⟨rfl, rfl⟩ := h
              have hp : t.Perm (y :: t.eraseIdx n) :=
                ih n y (t.eraseIdx n) (by unfold popAt; rw [hg])
              exact (hp.cons a).trans (List.Perm.swap y a _)

theorem sab_spec {st : MctsState} {idx : Nat} {env : IterEnv}
    {st2 : MctsState} (h : simulateAndBackprop st idx env = some st2) :
    st2.holeCards = st.holeCards ∧
    st2.communityCards = st.communityCards ∧
    st2.deckCards = st.deckCards ∧
    st2.untried = st.untried ∧
    st2.children.map Child.hand = st.children.map Child.hand ∧
    st2.rootVisits = st.rootVisits + 1 ∧
    ∃ o : Rat, 0 ≤ o ∧ o ≤ 1 ∧ st2.rootWins = st.rootWins + o := by
  unfold simulateAndBackprop at h
  cases hg : st.children.get? idx with
  | none => rw [hg] at h; simp at h
  | some node =>
      rw [hg] at h
      dsimp only at h
      split at h
      · split at h
        · split at h
          · split at h
            · rw [Option.some_inj] at h
              subst h
              refine ⟨rfl, rfl, rfl, rfl, ?_, rfl, ?_⟩
              · exact map_hand_set _ _ _ _ _ hg
              · exact ⟨simOutcome _ _, simOutcome_nonneg _ _,
                  simOutcome_le_one _ _, rfl⟩
            · exact absurd h (by simp)
          · exact absurd h (by simp)
        · exact absurd h (by simp)
      · exact absurd h (by simp)

theorem mctsIter_spec {score : Rat → Nat → Nat → Rat} {st : MctsState}
    {env : IterEnv} {st2 : MctsState} (h : mctsIter score st env = some st2) :
    st2.holeCards = st.holeCards ∧
    st2.communityCards = st.communityCards ∧
    st2.deckCards = st.deckCards ∧
    (st2.children.map Child.hand ++ st2.untried).Perm
      (st.children.map Child.hand ++ st.untried) ∧
    st2.rootVisits = st.rootVisits + 1 ∧
    ∃ o : Rat, 0 ≤ o ∧ o ≤ 1 ∧ st2.rootWins = st.rootWins + o := by
  unfold mctsIter at h
  split at h
  · -- expansion: untried is non-empty
    cases hp : popAt st.untried (env.pick % st.untried.length) with
    | none => rw [hp] at h; simp at h
    | some pr =>
        obtain ⟨opp, rest⟩ := pr
        rw [hp] at h
        dsimp only at h
        obtain ⟨h1, h2, h3, h4, h5, h6, h7⟩ := sab_spec h
        refine ⟨h1, h2, h3, ?_, h6, h7⟩
        rw [h5, h4]
        dsimp only
        rw [List.map_append, List.append_assoc]
        simp only [List.map_cons, List.map_nil]
        exact List.Perm.append_left _ (popAt_perm _ _ _ _ hp).symm
  · -- selection: untried is empty
    rename_i hu
    cases hb : bestChildIdx score st.rootVisits st.children with
    | none => rw [hb] at h; simp at h
    | some j =>
        rw [hb] at h
        dsimp only at h
        obtain ⟨h1, h2, h3, h4, h5, h6, h7⟩ := sab_spec h
        exact ⟨h1, h2, h3, by rw [h5, h4], h6, h7⟩

theorem mctsRun_spec {score : Rat → Nat → Nat → Rat} {timeLimit : Rat} :
    ∀ (sched : List IterEnv) (st st2 : MctsState),
      mctsRun score timeLimit sched st = some st2 →
      st2.holeCards = st.holeCards ∧
      st2.communityCards = st.communityCards ∧
      st2.deckCards = st.deckCards ∧
      (st2.children.map Child.hand ++ st2.untried).Perm
        (st.children.map Child.hand ++ st.untried) ∧
      (0 ≤ st.rootWins ∧ st.rootWins ≤ (st.rootVisits : Rat) →
        0 ≤ st2.rootWins ∧ st2.rootWins ≤ (st2.rootVisits : Rat)) := by
  intro sched
  induction sched with
  | nil =>
      intro st st2 h
      rw [mctsRun, Option.some_inj] at h
      subst h
      exact ⟨rfl, rfl, rfl, List.Perm.refl _, id⟩
  | cons env rest ih =>
      intro st st2 h
      rw [mctsRun] at h
      split at h
      · cases hi : mctsIter score st env with
        | none => rw [hi] at h; simp at h
        | some stm =>
            rw [hi] at h
            dsimp only at h
            obtain ⟨a1, a2, a3, a4, a5, a6⟩ := mctsIter_spec hi
            obtain ⟨b1, b2, b3, b4, b5⟩ := ih stm st2 h
            refine ⟨b1.trans a1, b2.trans a2, b3.trans a3, b4.trans a4, ?_⟩
            intro hw
            apply b5
            obtain ⟨o, ho1, ho2, ho3⟩ := a6
            constructor
            · rw [ho3]
              exact add_nonneg hw.1 ho1
            · rw [ho3, a5]
              push_cast
              linarith [hw.2]
      · rw [Option.some_inj] at h
        subst h
        exact ⟨rfl, rfl, rfl, List.Perm.refl _, id⟩

theorem mem_combinations2_fst {α : Type} :
    ∀ {l : List α} {p : α × α}, p ∈ combinations2 l → p.1 ∈ l := by
  intro l
  induction l with
  | nil => intro p h; simp [combinations2] at h
  | cons a t ih =>
      intro p h
      simp only [combinations2, List.mem_append, List.mem_map] at h
      rcases h with ⟨b, _, rfl⟩ | h
      · exact List.mem_cons_self a t
      · exact List.mem_cons_of_mem _ (ih h)

theorem combinations2_nodup {α : Type} :
    ∀ {l : List α}, l.Nodup → (combinations2 l).Nodup := by
  intro l
  induction l with
  | nil => intro _; simp [combinations2]
  | cons a t ih =>
      intro h
      obtain ⟨ha, ht⟩ := List.nodup_cons.mp h
      rw [combinations2]
      refine List.Nodup.append ?_ (ih ht) ?_
      · refine ht.map ?_
        intro x y hxy
        simpa using congrArg Prod.snd hxy
      · intro p hp1 hp2
        obtain ⟨b, _, rfl⟩ := List.mem_map.mp hp1
        exact ha (mem_combinations2_fst hp2)

/-- Claim C2 (code bug): invoked with zero plausible opponent
candidates — here an empty deck, so `untried` is empty — and the
positive time limit 1, the engine does not return 0.0: the selection
branch runs over an empty child list, leaves `best = None`, and the
subsequent `None.hand` dereference raises `AttributeError` (modelled as
`none`), so the zero-visits guard is never reached. -/
theorem mcts_no_candidates_crash :
    mcts_decision [(2, Suit.heart), (3, Suit.heart)] [] [] 1
      (fun _ _ _ => 0) [⟨0, 0, []⟩] = none := rfl

/-- Claim C9: whenever the engine returns normally, the caller-supplied
hole-card, community-card and deck lists in the engine state are exactly
the initial ones: every mutating list operation of an iteration acts on
freshly built lists, never on the caller's. -/
theorem mcts_preserves_inputs (hole community deck : List Card)
    (score : Rat → Nat → Nat → Rat) (timeLimit : Rat)
    (sched : List IterEnv) (st2 : MctsState)
    (h : mctsRun score timeLimit sched (mctsInit hole community deck) =
      some st2) :
    st2.holeCards = hole ∧ st2.communityCards = community ∧
      st2.deckCards = deck := by
  obtain ⟨h1, h2, h3, _, _⟩ := mctsRun_spec sched _ st2 h
  exact ⟨h1, h2, h3⟩

/-- Witness for claim C9: a deadline-expired run returns with the three
caller lists untouched. -/
theorem mcts_preserves_inputs_witness :
    (mctsInit [(2, Suit.heart), (3, Suit.heart)] [] [(4, Suit.club)]).holeCards =
      [(2, Suit.heart), (3, Suit.heart)] ∧
    (mctsInit [(2, Suit.heart), (3, Suit.heart)] [] [(4, Suit.club)]).communityCards =
      [] ∧
    (mctsInit [(2, Suit.heart), (3, Suit.heart)] [] [(4, Suit.club)]).deckCards =
      [(4, Suit.club)] :=
  mcts_preserves_inputs _ _ _ (fun _ _ _ => 0) 0 [] _ rfl

/-- Claim C10: throughout every run, the children's candidate hands are
pairwise distinct and, together with the root's remaining `untried`
list, form a permutation of the initial candidate set (each candidate is
expanded into at most one child, sampled without replacement). -/
theorem mcts_children_partition (hole community deck : List Card)
    (score : Rat → Nat → Nat → Rat) (timeLimit : Rat)
    (sched : List IterEnv) (st2 : MctsState) (hnd : deck.Nodup)
    (h : mctsRun score timeLimit sched (mctsInit hole community deck) =
      some st2) :
    (st2.children.map Child.hand).Nodup ∧
    (st2.children.map Child.hand ++ st2.untried).Perm
      (combinations2 (availableCards hole community deck)) := by
  obtain ⟨_, _, _, hperm, _⟩ := mctsRun_spec sched _ st2 h
  have hinit : (mctsInit hole community deck).children.map Child.hand ++
      (mctsInit hole community deck).untried =
      combinations2 (availableCards hole community deck) := rfl
  rw [hinit] at hperm
  refine ⟨?_, hperm⟩
  have havail : (availableCards hole community deck).Nodup :=
    hnd.filter _
  have hcomb := combinations2_nodup havail
  have hall : (st2.children.map Child.hand ++ st2.untried).Nodup :=
    hperm.nodup_iff.mpr hcomb
  exact (List.sublist_append_left _ _).nodup hall

/-- Witness for claim C10: at engine start over a distinct three-card
deck the partition invariant holds (no children, untried is the full
candidate set). -/
theorem mcts_children_partition_witness :
    ((mctsInit [(2, Suit.heart), (3, Suit.heart)] []
      [(4, Suit.club), (5, Suit.club), (6, Suit.club)]).children.map
        Child.hand).Nodup ∧
    ((mctsInit [(2, Suit.heart), (3, Suit.heart)] []
      [(4, Suit.club), (5, Suit.club), (6, Suit.club)]).children.map
        Child.hand ++
      (mctsInit [(2, Suit.heart), (3, Suit.heart)] []
        [(4, Suit.club), (5, Suit.club), (6, Suit.club)]).untried).Perm
      (combinations2 (availableCards [(2, Suit.heart), (3, Suit.heart)] []
        [(4, Suit.club), (5, Suit.club), (6, Suit.club)])) :=
  mcts_children_partition _ _ _ (fun _ _ _ => 0) 0 [] _ (by decide) rfl

/-- Claim C6: for every valid engine input (2 hole cards, 0/3/4/5
community cards, deck disjoint from both, any time budget) and any
schedule, a probability returned by the engine lies in the closed
interval from 0 to 1. -/
theorem mcts_prob_in_unit (hole community deck : List Card)
    (timeLimit : Rat) (score : Rat → Nat → Nat → Rat)
    (sched : List IterEnv) (p : Rat)
    (hh : hole.length = 2)
    (hc : community.length = 0 ∨ community.length = 3 ∨
      community.length = 4 ∨ community.length = 5)
    (hdisj : ∀ c ∈ deck, c ∉ hole ∧ c ∉ community)
    (h : mcts_decision hole community deck timeLimit score sched = some p) :
    0 ≤ p ∧ p ≤ 1 := by
  unfold mcts_decision at h
  cases hr : mctsRun score timeLimit sched (mctsInit hole community deck) with
  | none => rw [hr] at h; simp at h
  | some st2 =>
      rw [hr] at h
      have h2 : (if st2.rootVisits ≠ 0 then
          st2.rootWins / (st2.rootVisits : Rat) else 0) = p := by
        simpa using h
      obtain ⟨_, _, _, _, hb⟩ := mctsRun_spec sched _ st2 hr
      have hbounds := hb (by simp [mctsInit])
      rw [← h2]
      by_cases hv : st2.rootVisits ≠ 0
      · rw [if_pos hv]
        have hvpos : (0 : Rat) < (st2.rootVisits : Rat) := by
          exact_mod_cast Nat.pos_of_ne_zero hv
        constructor
        · exact div_nonneg hbounds.1 (le_of_lt hvpos)
        · rw [div_le_one hvpos]
          exact hbounds.2
      · rw [if_neg hv]
        norm_num

/-- Witness for claim C6: a valid input (two hole cards, empty board, a
disjoint one-card deck) on which the engine returns a probability, and
that probability lies in the unit interval. -/
theorem mcts_prob_in_unit_witness :
    mcts_decision [(2, Suit.heart), (3, Suit.heart)] [] [(4, Suit.club)] 0
      (fun _ _ _ => 0) [] = some 0 ∧ (0 ≤ (0 : Rat) ∧ (0 : Rat) ≤ 1) := by
  have hrun : mcts_decision [(2, Suit.heart), (3, Suit.heart)] []
      [(4, Suit.club)] 0 (fun _ _ _ => 0) [] = some 0 := rfl
  refine ⟨hrun, mcts_prob_in_unit [(2, Suit.heart), (3, Suit.heart)] []
    [(4, Suit.club)] 0 (fun _ _ _ => 0) [] 0 rfl (Or.inl rfl) ?_ hrun⟩
  decide

/-- Claim C7: with a non-positive time limit (and a clock whose elapsed
readings are non-negative) the engine performs zero search iterations —
the loop exits at the very first check, leaving the state exactly the
initial one — and returns exactly 0.0 via the zero-visits guard. -/
theorem mcts_nonpositive_deadline (hole community deck : List Card)
    (score : Rat → Nat → Nat → Rat) (timeLimit : Rat)
    (sched : List IterEnv) (hT : timeLimit ≤ 0)
    (hclock : ∀ e ∈ sched, 0 ≤ e.t) :
    mctsRun score timeLimit sched (mctsInit hole community deck) =
      some (mctsInit hole community deck) ∧
    mcts_decision hole community deck timeLimit score sched = some 0 := by
  have hrun : mctsRun score timeLimit sched (mctsInit hole community deck) =
      some (mctsInit hole community deck) := by
    cases sched with
    | nil => rfl
    | cons env rest =>
        rw [mctsRun, if_neg]
        exact not_lt.mpr (hT.trans (hclock env (List.mem_cons_self env rest)))
  refine ⟨hrun, ?_⟩
  unfold mcts_decision
  rw [hrun]
  simp [mctsInit]

/-- Witness for claim C7: at time limit 0 with one pending clock reading
of 0 the run returns the untouched initial state and the probability 0. -/
theorem mcts_nonpositive_deadline_witness :
    mctsRun (fun _ _ _ => 0) 0 [⟨0, 0, []⟩]
      (mctsInit [(2, Suit.heart), (3, Suit.heart)] [] [(4, Suit.club)]) =
      some (mctsInit [(2, Suit.heart), (3, Suit.heart)] [] [(4, Suit.club)]) ∧
    mcts_decision [(2, Suit.heart), (3, Suit.heart)] [] [(4, Suit.club)] 0
      (fun _ _ _ => 0) [⟨0, 0, []⟩] = some 0 :=
  mcts_nonpositive_deadline _ _ _ _ _ _ (le_refl 0)
    (by
      intro e he
      simp at he
      subst he
      exact le_refl 0)
